import Mathlib

/-!
Verification of the birthday-reminder program (`kursinis.py`).

The program keeps, per user, an ordered list of birthday records
(`name`, `day`, `month`), persists the user map to a JSON file, lists the
records sorted by `(month, day)`, and prints reminder lines for records
matching the current date.  Every definition below is a direct functional
translation of the corresponding Python code; stateful methods are modelled
as functions returning the post-state together with an optional raised
error message, and fallible whole-operations (loading the store) return
`Except String`.
-/

namespace BirthdayReminder

/-- A calendar date as used by `datetime.date`: year, month, day.  Only the
field projections are needed by the program. -/
structure Date where
  year : Int
  month : Int
  day : Int
deriving DecidableEq, Repr

/-- The frozen dataclass `Birthday(name, day, month)`.  The Python dataclass
has no `__post_init__` and performs no validation of any kind. -/
structure Birthday where
  name : String
  day : Int
  month : Int
deriving DecidableEq, Repr

/-- The dataclass constructor call `Birthday(name, day, month)`: it never
raises, whatever the field values, so it is total (always `some`). -/
def mkBirthday (name : String) (day month : Int) : Option Birthday :=
  some ⟨name, day, month⟩

/-- Method `Birthday.occurs_today`: `self.day == today.day and self.month == today.month`. -/
def Birthday.occurs_today (b : Birthday) (today : Date) : Bool :=
  b.day == today.day && b.month == today.month

/-- The `User` class: a username and the ordered list `_birthdays`. -/
structure User where
  username : String
  birthdays : List Birthday
deriving DecidableEq, Repr

/-- Method `User.add_birthday`: raises `ValueError` when some existing record has
the same name (leaving the list untouched, since the check precedes the
append), otherwise appends.  Returned as (post-state, raised message?). -/
def User.add_birthday (u : User) (b : Birthday) : User × Option String :=
  if u.birthdays.any (fun x => x.name == b.name) then
    (u, some "Birthday already exists for that name.")
  else
    ({ u with birthdays := u.birthdays ++ [b] }, none)

/-- Method `User.remove_birthday`: replaces `_birthdays` with the list filtered on
`b.name != name`, then raises `ValueError` when the length is unchanged.
The post-state is the filtered list in both branches, exactly as in the
Python method (the assignment happens before the length check). -/
def User.remove_birthday (u : User) (name : String) : User × Option String :=
  let remaining := u.birthdays.filter (fun b => b.name != name)
  if remaining.length == u.birthdays.length then
    ({ u with birthdays := remaining }, some "No birthday found for that name.")
  else
    ({ u with birthdays := remaining }, none)

/-- Method `User.todays_birthdays`: the sublist of records with `occurs_today`. -/
def User.todays_birthdays (u : User) (today : Date) : List Birthday :=
  u.birthdays.filter (fun b => b.occurs_today today)

/-- One record of the backing file: the `{name, day, month}` JSON object. -/
abbrev RawRec := String × Int × Int

/-- The backing-file content: a JSON object keyed by username (insertion
ordered, keys unique as in any JSON object produced by `json.dump` of a
dict), each value an array of records. -/
abbrev RawData := List (String × List RawRec)

/-- The in-memory `_Storage._users` dict: insertion-ordered map from
username to `User`. -/
abbrev Store := List (String × User)

/-- Turning a parsed JSON record into `Birthday(**rec)`. -/
def fromRaw (r : RawRec) : Birthday := ⟨r.1, r.2.1, r.2.2⟩

/-- Serialising a record for `_save`: `{"name": …, "day": …, "month": …}`. -/
def toRaw (b : Birthday) : RawRec := (b.name, b.day, b.month)

/-- Calling `add_birthday` in an exception-propagating context (`_load`): the raised
`ValueError` aborts the whole load. -/
def addE (u : User) (b : Birthday) : Except String User :=
  match u.add_birthday b with
  | (u2, none) => .ok u2
  | (_, some e) => .error e

/-- The inner loop of `_Storage._load` for one user: perform
`user.add_birthday(Birthday(**rec))` for each record in order, the raised
`ValueError` aborting the loop. -/
def loadUserAux (u : User) : List RawRec → Except String User
  | [] => .ok u
  | r :: rs =>
    match addE u (fromRaw r) with
    | .ok u2 => loadUserAux u2 rs
    | .error e => .error e

/-- Building one user in `_Storage._load`: start from `User(username)` and
add every record of the file entry. -/
def loadUser (username : String) (recs : List RawRec) : Except String User :=
  loadUserAux ⟨username, []⟩ recs

/-- Python dict assignment `d[k] = v`: overwrite in place when the key is
present, append otherwise. -/
def dictInsert (st : Store) (k : String) (v : User) : Store :=
  if st.any (fun p => p.1 == k) then
    st.map (fun p => if p.1 == k then (k, v) else p)
  else st ++ [(k, v)]

/-- The loop of `_Storage._load` over the file entries: build each user
from its records and store it under its username; any raised `ValueError`
propagates and aborts the load. -/
def loadStoreAux (st : Store) : RawData → Except String Store
  | [] => .ok st
  | p :: ps =>
    match loadUser p.1 p.2 with
    | .ok u => loadStoreAux (dictInsert st p.1 u) ps
    | .error e => .error e

/-- Method `_Storage._load` on an existing, structurally well-formed file, starting
from the empty `_users` dict. -/
def loadStore (raw : RawData) : Except String Store :=
  loadStoreAux [] raw

/-- Method `_Storage._save`: serialise every user (in dict insertion order) to an
object keyed by `u.username` with the record array in list order. -/
def saveStore (st : Store) : RawData :=
  st.map (fun p => (p.2.username, p.2.birthdays.map toRaw))

/-- Method `_Storage.get_user`: return the existing `User`, creating and
registering an empty one when absent. -/
def get_user (st : Store) (username : String) : Store × User :=
  match st.find? (fun p => p.1 == username) with
  | some p => (st, p.2)
  | none => (dictInsert st username ⟨username, []⟩, ⟨username, []⟩)

/-- The two concrete notifier variants (`ConsoleNotifier`, `EmailNotifier`
holding its address). -/
inductive Notifier where
  | console : Notifier
  | email (address : String) : Notifier
deriving DecidableEq, Repr

/-- Factory `NotifierFactory.create`: `"console"` gives a `ConsoleNotifier`;
`"email"` requires a truthy `address` kwarg (absent or empty string raises
`ValueError("Missing email address for email notifier")`); any other kind
raises `ValueError(f"Unknown notifier kind: \x7bkind\x7d")`.  Pure: it only
constructs the returned object. -/
def notifierCreate (kind : String) (address : Option String) : Except String Notifier :=
  if kind == "console" then .ok .console
  else if kind == "email" then
    match address with
    | some a =>
        if a == "" then .error "Missing email address for email notifier"
        else .ok (.email a)
    | none => .error "Missing email address for email notifier"
  else .error ("Unknown notifier kind: " ++ kind)

/-- Zero-padding to width 2, as in the format specs `%m`, `%d`, `{:02}`. -/
def pad2 (n : Int) : String :=
  let s := toString n
  if s.length < 2 then "".pushn '0' (2 - s.length) ++ s else s

/-- Zero-padding to width 4, as in the format spec `%Y`. -/
def pad4 (n : Int) : String :=
  let s := toString n
  if s.length < 4 then "".pushn '0' (4 - s.length) ++ s else s

/-- The `today:%Y‑%m‑%d` date rendering used by `ConsoleNotifier.send`. -/
def fmtYMD (t : Date) : String :=
  pad4 t.year ++ "‑" ++ pad2 t.month ++ "‑" ++ pad2 t.day

/-- The single line printed by `ConsoleNotifier.send`. -/
def consoleSend (u : User) (b : Birthday) (t : Date) : String :=
  "🎉  Hey " ++ u.username ++ "!  Today (" ++ fmtYMD t ++ ") is " ++
    b.name ++ "'s birthday!"

/-- Command `_cmd_remind` with channel `console`, for a given account and current
date: the printed lines paired with the number of `notifier.send`
invocations. -/
def cmdRemindConsole (u : User) (t : Date) : List String × Nat :=
  let todays := u.todays_birthdays t
  if todays.isEmpty then (["No birthdays today."], 0)
  else (todays.map (fun b => consoleSend u b t), todays.length)

/-- The sort key of `_cmd_list`: Python compares the tuples
`(b.month, b.day)` lexicographically, so the effective ordering is this
lexicographic less-or-equal. -/
def leKey (a b : Birthday) : Bool :=
  decide (a.month < b.month ∨ (a.month = b.month ∧ a.day ≤ b.day))

/-- Left-justified padding to width 20, as in the format spec `{:20}`. -/
def padName (s : String) : String :=
  s ++ "".pushn ' ' (20 - s.length)

/-- One output line of `_cmd_list`. -/
def fmtLine (b : Birthday) : String :=
  padName b.name ++ " – " ++ pad2 b.day ++ "." ++ pad2 b.month ++ "."

/-- The lines printed by `_cmd_list` for one account: Python `sorted` is a
stable ascending sort by the key, modelled by `List.mergeSort` on `leKey`;
it returns a new list and never mutates `user.birthdays`. -/
def cmdListLines (u : User) : List String :=
  if u.birthdays.isEmpty then ["No birthdays saved."]
  else (u.birthdays.mergeSort leKey).map fmtLine

/-- Command `_cmd_list` at store level: fetch the account via `get_user` (which may
register a fresh empty account) and print; nothing is saved. -/
def cmdListStore (st : Store) (username : String) : Store × List String :=
  let p := get_user st username
  (p.1, cmdListLines p.2)

/-- Membership in `range(1, 32)`, the argparse `choices` for `--day`. -/
def addDayAccepted (d : Int) : Bool := decide (1 ≤ d ∧ d < 32)

/-- Membership in `range(1, 13)`, the argparse `choices` for `--month`. -/
def addMonthAccepted (m : Int) : Bool := decide (1 ≤ m ∧ m < 13)

/-- The uniqueness invariant: at most one record per distinct name. -/
def Inv (u : User) : Prop := (u.birthdays.map Birthday.name).Nodup

instance (u : User) : Decidable (Inv u) :=
  inferInstanceAs (Decidable ((u.birthdays.map Birthday.name).Nodup))

/-- The invariant over a whole store. -/
def StoreInv (st : Store) : Prop := ∀ p ∈ st, Inv p.2

instance (st : Store) : Decidable (StoreInv st) :=
  inferInstanceAs (Decidable (∀ p ∈ st, Inv p.2))

/-- A well-formed store state: distinct keys, each key equal to its
account's username, each account satisfying the uniqueness invariant.
Every store reachable through the program's operations is of this shape. -/
def WFStore (st : Store) : Prop :=
  (st.map Prod.fst).Nodup ∧ ∀ p ∈ st, p.1 = p.2.username ∧ Inv p.2

instance (st : Store) : Decidable (WFStore st) :=
  inferInstanceAs
    (Decidable ((st.map Prod.fst).Nodup ∧ ∀ p ∈ st, p.1 = p.2.username ∧ Inv p.2))

/-! ### Basic facts about `add_birthday` and `remove_birthday` -/

lemma add_birthday_of_dup {u : User} {b : Birthday}
    (h : ∃ x ∈ u.birthdays, x.name = b.name) :
    u.add_birthday b = (u, some "Birthday already exists for that name.") := by
  have hany : u.birthdays.any (fun x => x.name == b.name) = true := by
    rw [List.any_eq_true]; simpa using h
  simp [User.add_birthday, hany]

lemma add_birthday_of_fresh {u : User} {b : Birthday}
    (h : ∀ x ∈ u.birthdays, x.name ≠ b.name) :
    u.add_birthday b = ({ u with birthdays := u.birthdays ++ [b] }, none) := by
  have hany : u.birthdays.any (fun x => x.name == b.name) = false := by
    rw [List.any_eq_false]; simpa using h
  simp [User.add_birthday, hany]

/-- C3: `add_birthday` raises exactly when a record with the same name is
already present; when it raises the account is untouched, and on success the
new record is appended after all prior records. -/
theorem add_birthday_correct (u : User) (b : Birthday) :
    ((u.add_birthday b).2.isSome = true ↔ ∃ x ∈ u.birthdays, x.name = b.name) ∧
    ((u.add_birthday b).2.isSome = true → (u.add_birthday b).1 = u) ∧
    ((u.add_birthday b).2 = none →
      (u.add_birthday b).1.birthdays = u.birthdays ++ [b]) := by
  by_cases h : ∃ x ∈ u.birthdays, x.name = b.name
  · rw [add_birthday_of_dup h]
    refine ⟨by simpa using h, fun _ => rfl, by simp⟩
  · push_neg at h
    rw [add_birthday_of_fresh h]
    refine ⟨by simpa using h, by simp, fun _ => rfl⟩

/-- Witness for C3 at a concrete account: adding "Bob" to an account holding
only "Ann" appends the new record. -/
theorem add_birthday_correct_witness :
    ((User.mk "alice" [⟨"Ann", 1, 1⟩]).add_birthday ⟨"Bob", 6, 2⟩).1.birthdays
      = [⟨"Ann", 1, 1⟩] ++ [⟨"Bob", 6, 2⟩] :=
  (add_birthday_correct ⟨"alice", [⟨"Ann", 1, 1⟩]⟩ ⟨"Bob", 6, 2⟩).2.2 (by decide)

/-- C4: `remove_birthday` raises exactly when no record bears the name; when
it raises the account is unchanged (the filtered list it assigns is the
original list), and on success, under the uniqueness invariant, exactly the
unique matching record is dropped and every other record keeps its place. -/
theorem remove_birthday_correct (u : User) (n : String) (hInv : Inv u) :
    ((u.remove_birthday n).2.isSome = true ↔ ∀ x ∈ u.birthdays, x.name ≠ n) ∧
    ((u.remove_birthday n).2.isSome = true → (u.remove_birthday n).1 = u) ∧
    ((u.remove_birthday n).2 = none →
      ∃ l1 b0 l2, u.birthdays = l1 ++ b0 :: l2 ∧ b0.name = n ∧
        (∀ x ∈ l1, x.name ≠ n) ∧ (∀ x ∈ l2, x.name ≠ n) ∧
        (u.remove_birthday n).1.birthdays = l1 ++ l2) := by
  by_cases h : ∀ x ∈ u.birthdays, x.name ≠ n
  · have hlen : (u.birthdays.filter (fun b => b.name != n)).length
        = u.birthdays.length := by
      rw [List.filter_length_eq_length]; simpa using h
    have heq : u.birthdays.filter (fun b => b.name != n) = u.birthdays := by
      rw [List.filter_eq_self]; simpa using h
    have hbeq : ((u.birthdays.filter (fun b => b.name != n)).length
        == u.birthdays.length) = true := by simpa using hlen
    refine ⟨?_, ?_, ?_⟩ <;> simp only [User.remove_birthday, hbeq, if_true]
    · simpa using h
    · intro _; rw [heq]
    · simp
  · push_neg at h
    obtain ⟨b0, hb0mem, hb0name⟩ := h
    obtain ⟨l1, l2, hsplit⟩ := List.append_of_mem hb0mem
    have hnames : ((l1 ++ b0 :: l2).map Birthday.name).Nodup := by
      rw [← hsplit]; exact hInv
    rw [List.map_append, List.map_cons, List.nodup_append] at hnames
    obtain ⟨-, hn2, hdisj⟩ := hnames
    have hl1 : ∀ x ∈ l1, x.name ≠ n := by
      intro x hx hxn
      exact hdisj (List.mem_map_of_mem Birthday.name hx)
        (by rw [hxn, ← hb0name]; exact List.mem_cons_self _ _)
    have hl2 : ∀ x ∈ l2, x.name ≠ n := by
      intro x hx hxn
      rw [List.nodup_cons] at hn2
      exact hn2.1 (by rw [hb0name, ← hxn]; exact List.mem_map_of_mem Birthday.name hx)
    have hfilter : u.birthdays.filter (fun b => b.name != n) = l1 ++ l2 := by
      rw [hsplit, List.filter_append, List.filter_cons]
      have : ¬ ((b0.name != n) = true) := by simp [hb0name]
      rw [if_neg this]
      rw [List.filter_eq_self.mpr (by simpa using hl1),
        List.filter_eq_self.mpr (by simpa using hl2)]
    have hlen : (u.birthdays.filter (fun b => b.name != n)).length
        ≠ u.birthdays.length := by
      rw [hfilter, hsplit]
      simp only [List.length_append, List.length_cons]
      omega
    have hbeq : ((u.birthdays.filter (fun b => b.name != n)).length
        == u.birthdays.length) = false := by simpa using hlen
    refine ⟨?_, ?_, ?_⟩ <;> simp only [User.remove_birthday, hbeq, if_false,
      Bool.false_eq_true]
    · constructor
      · intro hc; simp at hc
      · intro hall; exact absurd (hall b0 hb0mem) (by simp [hb0name])
    · intro hc; simp at hc
    · intro _
      exact ⟨l1, b0, l2, hsplit, hb0name, hl1, hl2, hfilter⟩

/-- Witness for C4 at a concrete account: removing an absent name leaves the
account exactly as it was. -/
theorem remove_birthday_correct_witness :
    ((User.mk "alice" [⟨"Bob", 6, 2⟩]).remove_birthday "Zed").1
      = User.mk "alice" [⟨"Bob", 6, 2⟩] :=
  (remove_birthday_correct ⟨"alice", [⟨"Bob", 6, 2⟩]⟩ "Zed" (by decide)).2.1
    (by decide)

/-- C5: `occurs_today` is true exactly when day and month both match the
reference date, and the reference date's year is irrelevant. -/
theorem occurs_today_correct (b : Birthday) (t : Date)
    (_hd : 1 ≤ b.day ∧ b.day ≤ 31) (_hm : 1 ≤ b.month ∧ b.month ≤ 12) :
    (b.occurs_today t = true ↔ (b.day = t.day ∧ b.month = t.month)) ∧
    (∀ y : Int, b.occurs_today ⟨y, t.month, t.day⟩ = b.occurs_today t) := by
  constructor
  · simp [Birthday.occurs_today]
  · intro y; rfl

/-- Witness for C5 at a concrete record and date: Bob's birthday (6 Feb)
occurs on 2026-02-06. -/
theorem occurs_today_correct_witness :
    Birthday.occurs_today ⟨"Bob", 6, 2⟩ ⟨2026, 2, 6⟩ = true :=
  ((occurs_today_correct ⟨"Bob", 6, 2⟩ ⟨2026, 2, 6⟩ (by decide) (by decide)).1).mpr
    (by decide)

/-! ### Preservation of the uniqueness invariant -/

lemma Inv_add (u : User) (b : Birthday) (h : Inv u) : Inv (u.add_birthday b).1 := by
  by_cases hd : ∃ x ∈ u.birthdays, x.name = b.name
  · rw [add_birthday_of_dup hd]; exact h
  · push_neg at hd
    rw [add_birthday_of_fresh hd]
    unfold Inv at h ⊢
    simp only [List.map_append, List.map_cons, List.map_nil]
    rw [List.nodup_append]
    refine ⟨h, List.nodup_singleton _, ?_⟩
    intro a ha hb
    obtain ⟨x, hx, rfl⟩ := List.mem_map.mp ha
    rw [List.mem_singleton] at hb
    exact hd x hx hb

lemma Inv_remove (u : User) (n : String) (h : Inv u) :
    Inv (u.remove_birthday n).1 := by
  have hsub : (u.birthdays.filter (fun b => b.name != n)).Sublist u.birthdays :=
    List.filter_sublist _
  have hres : Inv { u with birthdays := u.birthdays.filter (fun b => b.name != n) } :=
    h.sublist (hsub.map Birthday.name)
  unfold User.remove_birthday
  dsimp only
  split <;> exact hres

lemma dictInsert_storeInv {st : Store} {v : User} (k : String)
    (h : StoreInv st) (hv : Inv v) : StoreInv (dictInsert st k v) := by
  unfold dictInsert
  split
  · intro p hp
    rw [List.mem_map] at hp
    obtain ⟨q, hq, hpe⟩ := hp
    subst hpe
    split
    · exact hv
    · exact h q hq
  · intro p hp
    rw [List.mem_append] at hp
    rcases hp with hp | hp
    · exact h p hp
    · rw [List.mem_singleton] at hp; subst hp; exact hv

lemma get_user_storeInv (st : Store) (n : String) (h : StoreInv st) :
    StoreInv (get_user st n).1 := by
  unfold get_user
  split
  · exact h
  · exact dictInsert_storeInv n h (by simp [Inv])

lemma addE_ok {u u2 : User} {b : Birthday} (h : addE u b = .ok u2) :
    u2 = (u.add_birthday b).1 := by
  unfold addE at h
  cases hadd : u.add_birthday b with
  | mk u1 o =>
    rw [hadd] at h
    cases o with
    | none => simp only [Except.ok.injEq] at h; exact h.symm
    | some e => simp at h

lemma loadUserAux_inv : ∀ (recs : List RawRec) (u u2 : User), Inv u →
    loadUserAux u recs = .ok u2 → Inv u2 := by
  intro recs
  induction recs with
  | nil =>
    intro u u2 h he
    unfold loadUserAux at he
    injection he with he
    subst he; exact h
  | cons r rs ih =>
    intro u u2 h he
    unfold loadUserAux at he
    cases haddE : addE u (fromRaw r) with
    | error e => rw [haddE] at he; exact absurd he (by simp)
    | ok u1 =>
      rw [haddE] at he
      have h1 : Inv u1 := by rw [addE_ok haddE]; exact Inv_add u (fromRaw r) h
      exact ih u1 u2 h1 he

lemma loadUser_inv {username : String} {recs : List RawRec} {u : User}
    (h : loadUser username recs = .ok u) : Inv u :=
  loadUserAux_inv recs ⟨username, []⟩ u (by simp [Inv]) h

lemma loadStoreAux_inv : ∀ (raw : RawData) (st st2 : Store), StoreInv st →
    loadStoreAux st raw = .ok st2 → StoreInv st2 := by
  intro raw
  induction raw with
  | nil =>
    intro st st2 h he
    unfold loadStoreAux at he
    injection he with he
    subst he; exact h
  | cons p ps ih =>
    intro st st2 h he
    unfold loadStoreAux at he
    cases hlu : loadUser p.1 p.2 with
    | error e => rw [hlu] at he; exact absurd he (by simp)
    | ok u =>
      rw [hlu] at he
      exact ih _ st2 (dictInsert_storeInv p.1 h (loadUser_inv hlu)) he

/-- C1: the one-record-per-name invariant holds for a fresh account, is
preserved by `add_birthday` and `remove_birthday` (whether they raise or
not), holds for every account of a store obtained by loading the backing
file, and is untouched by the read-only operations: `todays_birthdays`
returns a sublist of the records without modifying them, and the
`get_user` lookup performed by the listing (and every other) command only
ever registers fresh empty accounts. -/
theorem uniqueness_invariant_preserved :
    (∀ n : String, Inv ⟨n, []⟩) ∧
    (∀ (u : User) (b : Birthday), Inv u → Inv (u.add_birthday b).1) ∧
    (∀ (u : User) (n : String), Inv u → Inv (u.remove_birthday n).1) ∧
    (∀ (u : User) (t : Date), (u.todays_birthdays t).Sublist u.birthdays) ∧
    (∀ (st : Store) (n : String), StoreInv st → StoreInv (get_user st n).1) ∧
    (∀ (raw : RawData) (st : Store), loadStore raw = .ok st → StoreInv st) :=
  ⟨fun _ => by simp [Inv],
   Inv_add,
   Inv_remove,
   fun _ _ => List.filter_sublist _,
   get_user_storeInv,
   fun raw st h => loadStoreAux_inv raw [] st (by intro p hp; simp at hp) h⟩

/-- Witness for C1 at concrete data: adding a fresh record to an account
that satisfies the invariant preserves it. -/
theorem uniqueness_invariant_preserved_witness :
    Inv ((User.mk "alice" [⟨"Ann", 1, 1⟩]).add_birthday ⟨"Bob", 6, 2⟩).1 :=
  uniqueness_invariant_preserved.2.1 ⟨"alice", [⟨"Ann", 1, 1⟩]⟩ ⟨"Bob", 6, 2⟩
    (by decide)

/-! ### Loading: rejection of duplicate names, and the save/load round-trip -/

lemma addE_of_dup {u : User} {b : Birthday}
    (h : ∃ x ∈ u.birthdays, x.name = b.name) :
    addE u b = .error "Birthday already exists for that name." := by
  unfold addE
  rw [add_birthday_of_dup h]

lemma addE_of_fresh {u : User} {b : Birthday}
    (h : ∀ x ∈ u.birthdays, x.name ≠ b.name) :
    addE u b = .ok { u with birthdays := u.birthdays ++ [b] } := by
  unfold addE
  rw [add_birthday_of_fresh h]

lemma loadUserAux_error_of_dup : ∀ (recs : List RawRec) (u : User),
    (u.birthdays.map Birthday.name).Nodup →
    ¬ ((u.birthdays.map Birthday.name) ++ recs.map (fun r => r.1)).Nodup →
    ∃ e, loadUserAux u recs = .error e := by
  intro recs
  induction recs with
  | nil =>
    intro u hu hdup
    simp only [List.map_nil, List.append_nil] at hdup
    exact absurd hu hdup
  | cons r rs ih =>
    intro u hu hdup
    by_cases hr : r.1 ∈ u.birthdays.map Birthday.name
    · have hex : ∃ x ∈ u.birthdays, x.name = (fromRaw r).name := by
        obtain ⟨x, hx, hxe⟩ := List.mem_map.mp hr
        exact ⟨x, hx, hxe⟩
      refine ⟨"Birthday already exists for that name.", ?_⟩
      simp only [loadUserAux]
      rw [addE_of_dup hex]
    · have hfresh : ∀ x ∈ u.birthdays, x.name ≠ (fromRaw r).name := by
        intro x hx hxe
        apply hr
        have hxr : x.name = r.1 := hxe
        rw [← hxr]
        exact List.mem_map_of_mem Birthday.name hx
      simp only [loadUserAux]
      rw [addE_of_fresh hfresh]
      apply ih
      · simp only [List.map_append, List.map_cons, List.map_nil]
        rw [List.nodup_append]
        refine ⟨hu, List.nodup_singleton _, ?_⟩
        intro a ha hb
        rw [List.mem_singleton] at hb
        subst hb
        exact hr ha
      · intro hcon
        apply hdup
        simp only [List.map_cons]
        rw [List.append_cons]
        have hcon2 : ((List.map Birthday.name u.birthdays ++ [(fromRaw r).name])
            ++ List.map (fun r => r.1) rs).Nodup := by
          simpa only [List.map_append, List.map_cons, List.map_nil] using hcon
        exact hcon2

lemma loadUser_error_of_dup (username : String) {recs : List RawRec}
    (h : ¬ (recs.map (fun r => r.1)).Nodup) :
    ∃ e, loadUser username recs = .error e :=
  loadUserAux_error_of_dup recs ⟨username, []⟩ (by simp) (by simpa using h)

lemma loadStoreAux_error : ∀ (raw : RawData) (st : Store),
    (∃ p ∈ raw, ¬ ((p.2.map (fun r => r.1)).Nodup)) →
    ∃ e, loadStoreAux st raw = .error e := by
  intro raw
  induction raw with
  | nil => intro st h; simp at h
  | cons p ps ih =>
    intro st h
    rcases h with ⟨q, hq, hqdup⟩
    rw [List.mem_cons] at hq
    cases hlu : loadUser p.1 p.2 with
    | error e => exact ⟨e, by simp only [loadStoreAux, hlu]⟩
    | ok u =>
      rcases hq with hq | hq
      · rw [hq] at hqdup
        obtain ⟨e, he⟩ := loadUser_error_of_dup p.1 hqdup
        rw [he] at hlu
        exact absurd hlu (by simp)
      · obtain ⟨e, he⟩ := ih (dictInsert st p.1 u) ⟨q, hq, hqdup⟩
        exact ⟨e, by simp only [loadStoreAux, hlu]; exact he⟩

/-- C10: a structurally well-formed backing file in which some user has two
records with the same name is rejected by `_load` (the duplicate-name
`ValueError` raised by `add_birthday` aborts the load), so no in-memory
account violating the invariant is ever produced. -/
theorem load_rejects_duplicate_names (raw : RawData)
    (h : ∃ p ∈ raw, ¬ ((p.2.map (fun r => r.1)).Nodup)) :
    (loadStore raw).isOk = false := by
  obtain ⟨e, he⟩ := loadStoreAux_error raw [] h
  unfold loadStore
  rw [he]
  rfl

/-- Witness for C10 at a concrete file: a file giving user "alice" two
records named "Bob" fails to load. -/
theorem load_rejects_duplicate_names_witness :
    (loadStore [("alice", [("Bob", 6, 2), ("Bob", 7, 3)])]).isOk = false :=
  load_rejects_duplicate_names [("alice", [("Bob", 6, 2), ("Bob", 7, 3)])]
    (by decide)

lemma loadUserAux_ok_of_nodup : ∀ (bs : List Birthday) (u : User),
    ((u.birthdays ++ bs).map Birthday.name).Nodup →
    loadUserAux u (bs.map toRaw) = .ok { u with birthdays := u.birthdays ++ bs } := by
  intro bs
  induction bs with
  | nil =>
    intro u h
    simp only [List.map_nil, loadUserAux, List.append_nil]
  | cons b bs ih =>
    intro u h
    have hfresh : ∀ x ∈ u.birthdays, x.name ≠ b.name := by
      rw [List.map_append, List.map_cons, List.nodup_append] at h
      intro x hx hxe
      exact h.2.2 (List.mem_map_of_mem Birthday.name hx)
        (by rw [hxe]; exact List.mem_cons_self _ _)
    have hb : fromRaw (toRaw b) = b := rfl
    simp only [List.map_cons, loadUserAux]
    rw [hb, addE_of_fresh hfresh]
    have h2 : ((({ u with birthdays := u.birthdays ++ [b] } : User).birthdays
        ++ bs).map Birthday.name).Nodup := by
      rw [← List.append_cons]
      exact h
    show loadUserAux { u with birthdays := u.birthdays ++ [b] } (bs.map toRaw)
        = Except.ok { u with birthdays := u.birthdays ++ b :: bs }
    rw [ih { u with birthdays := u.birthdays ++ [b] } h2]
    rw [List.append_assoc, List.singleton_append]

lemma loadUser_roundtrip (u : User) (h : Inv u) :
    loadUser u.username (u.birthdays.map toRaw) = .ok u := by
  have := loadUserAux_ok_of_nodup u.birthdays ⟨u.username, []⟩
    (by simpa [Inv] using h)
  simpa using this

lemma dictInsert_fresh {st : Store} {k : String} {v : User}
    (h : ∀ p ∈ st, p.1 ≠ k) :
    dictInsert st k v = st ++ [(k, v)] := by
  have hany : st.any (fun p => p.1 == k) = false := by
    rw [List.any_eq_false]; simpa using h
  simp [dictInsert, hany]

lemma loadStoreAux_roundtrip : ∀ (st acc : Store),
    (∀ p ∈ st, p.1 = p.2.username ∧ Inv p.2) →
    ((acc.map Prod.fst) ++ st.map Prod.fst).Nodup →
    loadStoreAux acc (saveStore st) = .ok (acc ++ st) := by
  intro st
  induction st with
  | nil => intro acc h hk; simp [saveStore, loadStoreAux]
  | cons p ps ih =>
    intro acc h hk
    have hp := h p (List.mem_cons_self _ _)
    have hsave : saveStore (p :: ps)
        = (p.2.username, p.2.birthdays.map toRaw) :: saveStore ps := rfl
    rw [hsave]
    simp only [loadStoreAux]
    rw [loadUser_roundtrip p.2 hp.2]
    show loadStoreAux (dictInsert acc p.2.username p.2) (saveStore ps)
        = Except.ok (acc ++ p :: ps)
    have hfresh : ∀ q ∈ acc, q.1 ≠ p.2.username := by
      rw [List.map_cons, List.nodup_append] at hk
      intro q hq hqe
      exact hk.2.2 (List.mem_map_of_mem Prod.fst hq)
        (by rw [hqe, ← hp.1]; exact List.mem_cons_self _ _)
    rw [dictInsert_fresh hfresh]
    have hpe : ((p.2.username, p.2) : String × User) = p := by
      rw [← hp.1]
    rw [hpe]
    have hkeys : (((acc ++ [p]).map Prod.fst) ++ ps.map Prod.fst).Nodup := by
      rw [List.map_append, List.append_assoc]
      simpa only [List.map_cons, List.map_nil, List.singleton_append] using hk
    have hps : ∀ q ∈ ps, q.1 = q.2.username ∧ Inv q.2 :=
      fun q hq => h q (List.mem_cons_of_mem _ hq)
    rw [ih (acc ++ [p]) hps hkeys]
    rw [List.append_assoc, List.singleton_append]

/-- C2: saving a well-formed store to the backing file and loading a fresh
store from that file reproduces the store exactly: the same usernames in
the same dict order, each bound to an account with the same record
sequence. -/
theorem save_load_roundtrip (st : Store) (h : WFStore st) :
    loadStore (saveStore st) = .ok st := by
  have := loadStoreAux_roundtrip st [] h.2 (by simpa using h.1)
  simpa [loadStore] using this

/-- Witness for C2 at a concrete store holding one account with one
record. -/
theorem save_load_roundtrip_witness :
    loadStore (saveStore [("alice", ⟨"alice", [⟨"Bob", 6, 2⟩]⟩)])
      = .ok [("alice", ⟨"alice", [⟨"Bob", 6, 2⟩]⟩)] :=
  save_load_roundtrip [("alice", ⟨"alice", [⟨"Bob", 6, 2⟩]⟩)] (by decide)

/-! ### Record construction, the notifier factory, remind, and list -/

/-- C6 counterexample: the `Birthday` dataclass constructor performs no
validation, so constructing a record with day 99 and month 0 succeeds, and
such an out-of-range record even loads successfully from the backing file —
construction does not fail outside the 1–31 / 1–12 ranges. -/
theorem birthday_construction_counterexample :
    (mkBirthday "Bob" 99 0).isSome = true ∧
    ¬ (1 ≤ (99 : Int) ∧ (99 : Int) ≤ 31) ∧
    loadStore [("alice", [("Bob", 99, 0)])]
      = .ok [("alice", ⟨"alice", [⟨"Bob", 99, 0⟩]⟩)] :=
  ⟨rfl, by decide, rfl⟩

/-- C6 amended: constructing a `Birthday` always succeeds, for every name,
day and month (the dataclass performs no validation); the 1–31 and 1–12
range restrictions are enforced only by the CLI argument parser for the
`add` command (`choices=range(1, 32)` and `choices=range(1, 13)`). -/
theorem birthday_construction_amended :
    (∀ (name : String) (day month : Int),
      mkBirthday name day month = some ⟨name, day, month⟩) ∧
    (∀ d : Int, addDayAccepted d = true ↔ (1 ≤ d ∧ d ≤ 31)) ∧
    (∀ m : Int, addMonthAccepted m = true ↔ (1 ≤ m ∧ m ≤ 12)) := by
  refine ⟨fun _ _ _ => rfl, ?_, ?_⟩ <;> intro x <;>
    simp only [addDayAccepted, addMonthAccepted, decide_eq_true_eq] <;>
    omega

/-- Witness for the amended C6 at a concrete record. -/
theorem birthday_construction_amended_witness :
    mkBirthday "Bob" 6 2 = some ⟨"Bob", 6, 2⟩ :=
  birthday_construction_amended.1 "Bob" 6 2

/-- C8: the notifier factory returns the console variant for `"console"`,
the email variant holding the address for `"email"` with a configured
(present and non-empty) address, raises the missing-configuration error for
`"email"` with no or an empty address, and raises the unknown-kind error
for every other tag; being a pure function it has no effect beyond the
returned value. -/
theorem notifier_factory_correct :
    (∀ addr : Option String, notifierCreate "console" addr = .ok .console) ∧
    (∀ a : String, a ≠ "" →
      notifierCreate "email" (some a) = .ok (.email a)) ∧
    (notifierCreate "email" none
      = .error "Missing email address for email notifier") ∧
    (notifierCreate "email" (some "")
      = .error "Missing email address for email notifier") ∧
    (∀ (k : String) (addr : Option String), k ≠ "console" → k ≠ "email" →
      notifierCreate k addr = .error ("Unknown notifier kind: " ++ k)) := by
  refine ⟨fun _ => rfl, ?_, rfl, rfl, ?_⟩
  · intro a ha
    have ha' : (a == "") = false := by rw [beq_eq_false_iff_ne]; exact ha
    simp [notifierCreate, ha']
  · intro k addr hk1 hk2
    have h1 : (k == "console") = false := by rw [beq_eq_false_iff_ne]; exact hk1
    have h2 : (k == "email") = false := by rw [beq_eq_false_iff_ne]; exact hk2
    simp [notifierCreate, h1, h2]

/-- Witness for C8: a configured email address yields the email variant. -/
theorem notifier_factory_correct_witness :
    notifierCreate "email" (some "alice@mail.com") = .ok (.email "alice@mail.com") :=
  notifier_factory_correct.2.1 "alice@mail.com" (by decide)

/-- C7: the console remind command prints exactly one line naming the
matching record when exactly one record matches today, and prints exactly
the single "No birthdays today." line with zero notifier invocations when
none matches. -/
theorem remind_console_correct (u : User) (t : Date) :
    (u.todays_birthdays t = [] →
      cmdRemindConsole u t = (["No birthdays today."], 0)) ∧
    (∀ b : Birthday, u.todays_birthdays t = [b] →
      (cmdRemindConsole u t).1 = [consoleSend u b t] ∧
      (cmdRemindConsole u t).2 = 1 ∧
      ∃ pre post : String, consoleSend u b t = pre ++ (b.name ++ post)) := by
  constructor
  · intro h
    simp [cmdRemindConsole, h]
  · intro b h
    refine ⟨by simp [cmdRemindConsole, h], by simp [cmdRemindConsole, h], ?_⟩
    refine ⟨"🎉  Hey " ++ u.username ++ "!  Today (" ++ fmtYMD t ++ ") is ",
      "'s birthday!", ?_⟩
    simp [consoleSend, String.append_assoc]

/-- Witness for C7: with exactly one record matching 2026-02-06 the
notifier is invoked exactly once. -/
theorem remind_console_correct_witness :
    (cmdRemindConsole (User.mk "alice" [⟨"Bob", 6, 2⟩]) ⟨2026, 2, 6⟩).2 = 1 :=
  ((remind_console_correct ⟨"alice", [⟨"Bob", 6, 2⟩]⟩ ⟨2026, 2, 6⟩).2 ⟨"Bob", 6, 2⟩
    (by decide)).2.1

lemma leKey_trans : ∀ a b c : Birthday, leKey a b → leKey b c → leKey a c := by
  intro a b c
  simp only [leKey, decide_eq_true_eq]
  omega

lemma leKey_total : ∀ a b : Birthday, leKey a b || leKey b a := by
  intro a b
  simp only [leKey, Bool.or_eq_true, decide_eq_true_eq]
  omega

/-- C9: the listing of a non-empty account displays exactly its records,
stably sorted ascending by `(month, day)`: the displayed sequence is a
permutation of the stored one, pairwise ordered by the key, with the
records of any fixed key kept in their stored (insertion) order; and the
command leaves the store — hence the account's stored sequence — untouched
(the sort is display-only and nothing is saved). -/
theorem list_sorted_stable (u : User) (h : u.birthdays ≠ []) :
    cmdListLines u = (u.birthdays.mergeSort leKey).map fmtLine ∧
    (u.birthdays.mergeSort leKey).Perm u.birthdays ∧
    (u.birthdays.mergeSort leKey).Pairwise (fun a b => leKey a b = true) ∧
    (∀ k : Int × Int,
      (u.birthdays.mergeSort leKey).filter (fun b => decide ((b.month, b.day) = k))
        = u.birthdays.filter (fun b => decide ((b.month, b.day) = k))) ∧
    (∀ st : Store, st.find? (fun p => p.1 == u.username) = some (u.username, u) →
      cmdListStore st u.username = (st, cmdListLines u)) := by
  have hne : u.birthdays.isEmpty = false := by
    rw [List.isEmpty_eq_false]; exact h
  refine ⟨by simp [cmdListLines, hne], List.mergeSort_perm _ _,
    List.sorted_mergeSort leKey_trans leKey_total _, ?_, ?_⟩
  · intro k
    have hkeep : ∀ a ∈ u.birthdays.filter (fun b => decide ((b.month, b.day) = k)),
        (a.month, a.day) = k := by
      intro a ha
      have := (List.mem_filter.mp ha).2
      simpa using this
    have hpair : (u.birthdays.filter (fun b => decide ((b.month, b.day) = k))).Pairwise
        (fun a b => leKey a b = true) := by
      apply List.pairwise_of_forall_mem_list
      intro a ha b hb
      have ha' := hkeep a ha
      have hb' := hkeep b hb
      cases k with
      | mk km kd =>
        simp only [Prod.mk.injEq] at ha' hb'
        simp only [leKey, decide_eq_true_eq]
        omega
    have hsubl : (u.birthdays.filter (fun b => decide ((b.month, b.day) = k))).Sublist
        (u.birthdays.mergeSort leKey) :=
      List.sublist_mergeSort leKey_trans leKey_total hpair (List.filter_sublist _)
    have heq : (u.birthdays.filter (fun b => decide ((b.month, b.day) = k))).filter
        (fun b => decide ((b.month, b.day) = k))
        = u.birthdays.filter (fun b => decide ((b.month, b.day) = k)) :=
      List.filter_eq_self.mpr (fun a ha => (List.mem_filter.mp ha).2)
    have hsub2 : (u.birthdays.filter (fun b => decide ((b.month, b.day) = k))).Sublist
        ((u.birthdays.mergeSort leKey).filter (fun b => decide ((b.month, b.day) = k))) := by
      have := hsubl.filter (fun b => decide ((b.month, b.day) = k))
      rwa [heq] at this
    have hlen : ((u.birthdays.mergeSort leKey).filter
          (fun b => decide ((b.month, b.day) = k))).length
        = (u.birthdays.filter (fun b => decide ((b.month, b.day) = k))).length :=
      ((List.mergeSort_perm u.birthdays leKey).filter _).length_eq
    exact (hsub2.eq_of_length hlen.symm).symm
  · intro st hf
    simp [cmdListStore, get_user, hf]

/-- Witness for C9 at a concrete two-record account. -/
theorem list_sorted_stable_witness :
    cmdListLines (User.mk "alice" [⟨"Bob", 6, 2⟩, ⟨"Ann", 1, 1⟩])
      = ((([⟨"Bob", 6, 2⟩, ⟨"Ann", 1, 1⟩] : List Birthday).mergeSort leKey).map fmtLine) :=
  (list_sorted_stable ⟨"alice", [⟨"Bob", 6, 2⟩, ⟨"Ann", 1, 1⟩]⟩ (by decide)).1

end BirthdayReminder
